import Mathlib

/-
  Verification of mailthon/headers.py: the Headers dictionary subclass
  (resent, sender, receivers, prepare) and the header-generating helpers
  (subject, sender, to, cc, bcc, content_disposition, date, message_id).

  A `Headers` object is a Python dict from header names to values; it is
  embedded as an association list in insertion order whose keys are unique
  (the invariant Python dicts maintain by construction).  A MIME message is
  embedded as an association list that may carry repeated keys, since
  `email.mime` objects allow several headers of the same name.
-/

set_option autoImplicit false

namespace Mailthon

/-- Association-list embedding of a Python dict in insertion order. -/
abbrev Headers := List (String × String)

/-- Association-list embedding of a mutable MIME object; unlike `Headers`
it can hold several entries under one name. -/
abbrev Mime := List (String × String)

/-- The keys of a header set, in insertion order. -/
def keys (h : Headers) : List String := h.map Prod.fst

/-- Embeds the Python membership test `key in self` on a dict. -/
def hasKey (h : Headers) (k : String) : Bool :=
  h.any (fun p => p.1 = k)

/-- Embeds `self.get(key)` / `self[key]`: the value stored under the first
(and, on a dict, only) entry whose key is `k`. -/
def dictGet (h : Headers) (k : String) : Option String :=
  match h with
  | [] => none
  | p :: rest => if p.1 = k then some p.2 else dictGet rest k

/-- Embeds `self[key] = value` on a Python dict: replace the value of an
existing entry in place, else append a new entry. -/
def dictSet (h : Headers) (k v : String) : Headers :=
  match h with
  | [] => [(k, v)]
  | p :: rest => if p.1 = k then (k, v) :: rest else p :: dictSet rest k v

/-- Embeds `del self[key]` on a Python dict (total: deleting an absent key
is a no-op here, where CPython raises KeyError). -/
def dictDel (h : Headers) (k : String) : Headers :=
  h.filter (fun p => p.1 ≠ k)

/-- The dict invariant: every header name occurs at most once. -/
def NodupKeys (h : Headers) : Prop := (keys h).Nodup

instance decidableNodupKeys (h : Headers) : Decidable (NodupKeys h) :=
  List.nodupDecidable (keys h)

/-- Number of entries stored under the name `k`. -/
def countKey (h : Headers) (k : String) : Nat :=
  (h.filter (fun p => p.1 = k)).length

/-- Embeds the `Headers.resent` property: whether the dict holds the key `Resent-Date`. -/
def resent (h : Headers) : Bool := hasKey h "Resent-Date"

/-- Embeds the lookup loop of `Headers.sender`: return `self[item]` for the
first candidate `item` present, else the implicit Python `None`. -/
def firstPresent (h : Headers) : List String → Option String
  | [] => none
  | k :: ks => if hasKey h k then dictGet h k else firstPresent h ks

/-- Embeds the `Headers.sender` property. -/
def sender (h : Headers) : Option String :=
  firstPresent h
    (if resent h then ["Resent-Sender", "Resent-From"] else ["Sender", "From"])

/-- Splits a character list at every occurrence of `c`; mirrors how
`email.utils.getaddresses` cuts a header value into comma-separated
address chunks. -/
def splitChar (c : Char) : List Char → List (List Char)
  | [] => [[]]
  | x :: xs =>
    if x = c then [] :: splitChar c xs
    else
      match splitChar c xs with
      | [] => [[x]]
      | g :: gs => (x :: g) :: gs

/-- Drops leading and trailing spaces from a character list. -/
def trimSpaces (l : List Char) : List Char :=
  ((l.dropWhile (fun x => x = ' ')).reverse.dropWhile (fun x => x = ' ')).reverse

/-- The characters strictly before the first occurrence of `c`. -/
def beforeChar (c : Char) (l : List Char) : List Char :=
  l.takeWhile (fun x => x ≠ c)

/-- The characters strictly after the first occurrence of `c`, when present. -/
def afterChar (c : Char) : List Char → Option (List Char)
  | [] => none
  | x :: xs => if x = c then some xs else afterChar c xs

/-- Modelled from the spec: how the standard-library helper
`email.utils.getaddresses` (not part of this repository) reads one
comma-separated chunk — a `Name <address>` form yields the pair
(display name, angle-bracketed address), a bare `address` form yields
an empty display name and the address with surrounding spaces removed. -/
def parseAddress (chunk : List Char) : String × String :=
  match afterChar '<' chunk with
  | none => (String.mk [], String.mk (trimSpaces chunk))
  | some rest => (String.mk (trimSpaces (beforeChar '<' chunk)),
                  String.mk (beforeChar '>' rest))

/-- Modelled from the spec: `email.utils.getaddresses` (standard library,
not part of this repository): the field values are read as comma-separated
address lists, and every chunk of every field becomes a
(display name, address) pair, in parse order across the fields. -/
def getaddresses (fields : List String) : List (String × String) :=
  ((fields.map (fun f => splitChar ',' f.data)).flatten).map parseAddress

/-- The addresses a single header value contributes: its comma-separated
chunks, each reduced to the address part. -/
def parseField (f : String) : List String :=
  ((splitChar ',' f.data).map parseAddress).map Prod.snd

/-- Embeds the `Headers.receivers` property: pick the `To`/`Cc`/`Bcc`
family (or their `Resent-` forms), keep the truthy (present and
non-empty) values, and return the address part of every parsed pair. -/
def receivers (h : Headers) : List String :=
  let attrs :=
    if resent h then ["Resent-To", "Resent-Cc", "Resent-Bcc"]
    else ["To", "Cc", "Bcc"]
  let addrs := ((attrs.map (fun item => dictGet h item)).filterMap id).filter
    (fun f => f ≠ "")
  (getaddresses addrs).map Prod.snd

/-- Embeds `del mime[key]` on an `email.mime` object: removes every entry
stored under `k` (and is a no-op when none is, as in the library). -/
def mimeDel (m : Mime) (k : String) : Mime :=
  m.filter (fun p => p.1 ≠ k)

/-- Embeds `mime[key] = value` on an `email.mime` object: appends a new
header, keeping any entries already present. -/
def mimeSet (m : Mime) (k v : String) : Mime :=
  m ++ [(k, v)]

/-- Embeds `Headers.prepare(mime)`: walk the stored entries in order and,
unless the key is exactly `Bcc` or `Resent-Bcc`, delete the name from the
message and re-add it with the stored value. -/
def prepare (h : Headers) (m : Mime) : Mime :=
  h.foldl
    (fun acc kv =>
      if kv.1 = "Bcc" ∨ kv.1 = "Resent-Bcc" then acc
      else mimeSet (mimeDel acc kv.1) kv.1 kv.2)
    m

/-- One loop iteration of `Headers.prepare`, threading the full program
state (the header dict and the message) to show which half each Python
statement touches. -/
def prepareStep (key value : String) (s : Headers × Mime) : Headers × Mime :=
  if key = "Bcc" ∨ key = "Resent-Bcc" then s
  else (s.1, mimeSet (mimeDel s.2 key) key value)

/-- `Headers.prepare` as a transformer of the full state. -/
def prepareS (h : Headers) (m : Mime) : Headers × Mime :=
  h.foldl (fun s kv => prepareStep kv.1 kv.2 s) (h, m)

/-- A mutation performed on a `Headers` object by its caller. -/
inductive Op where
  | set (k v : String)
  | del (k : String)

/-- The header name an operation touches. -/
def Op.key : Op → String
  | .set k _ => k
  | .del k => k

/-- Runs one caller operation on the dict. -/
def applyOp (h : Headers) : Op → Headers
  | .set k v => dictSet h k v
  | .del k => dictDel h k

/-- Runs a sequence of caller operations, oldest first. -/
def applyOps (h : Headers) (ops : List Op) : Headers :=
  ops.foldl applyOp h

/-- Embeds `email.utils.quote` (standard library): double every backslash
and escape every double quote with a backslash. -/
def quoteChar (c : Char) : List Char :=
  if c = '\\' then ['\\', '\\']
  else if c = '"' then ['\\', '"']
  else [c]

/-- Embeds `email.utils.quote` applied to a whole string. -/
def quote (s : String) : String :=
  String.mk ((s.data.map quoteChar).flatten)

/-- Embeds the `subject` generator as the pair it yields. -/
def subject (text : String) : String × String := ("Subject", text)

/-- Embeds the module-level `sender` generator. -/
def senderHeader (address : String) : String × String := ("Sender", address)

/-- Embeds the `to` generator: the name `To` paired with the comma-space join of the addresses. -/
def toHeader (addrs : List String) : String × String :=
  ("To", String.intercalate ", " addrs)

/-- Embeds the `cc` generator. -/
def ccHeader (addrs : List String) : String × String :=
  ("Cc", String.intercalate ", " addrs)

/-- Embeds the `bcc` generator. -/
def bccHeader (addrs : List String) : String × String :=
  ("Bcc", String.intercalate ", " addrs)

/-- Embeds the `content_disposition` generator:
the name `Content-Disposition` paired with the disposition and the quoted filename laid out by the format string of the source. -/
def content_disposition (disposition filename : String) : String × String :=
  ("Content-Disposition",
   disposition ++ "; filename=\"" ++ quote filename ++ "\"")

/-- Embeds the Python expression `x or y` on an optional string argument: `None` and
the empty string are falsy, so both select `y`. -/
def pyOrStr : Option String → String → String
  | none, y => y
  | some s, y => if s = "" then y else s

/-- Embeds the `date` generator; `freshNow` stands for the string
`formatdate(localtime=True)` would produce at the moment of the call. -/
def date (time : Option String) (freshNow : String) : String × String :=
  ("Date", pyOrStr time freshNow)

/-- Embeds the `message_id` generator; `freshId` stands for the string
`make_msgid(idstring)` would produce at the moment of the call. -/
def message_id (string : Option String) (freshId : String) : String × String :=
  ("Message-ID", pyOrStr string freshId)

/-! ### Shared lemmas about the dict embedding -/

/-- Membership (`key in self`) coincides with a successful `self.get(key)`. -/
theorem hasKey_eq_isSome (h : Headers) (k : String) :
    hasKey h k = (dictGet h k).isSome := by
  induction h with
  | nil => rfl
  | cons p rest ih =>
    simp only [hasKey, List.any_cons, dictGet] at ih ⊢
    by_cases hpk : p.1 = k
    · simp [hpk]
    · simp [hpk, ih]

/-- Membership (`key in self`) coincides with an entry being stored. -/
theorem hasKey_iff_mem (h : Headers) (k : String) :
    hasKey h k = true ↔ ∃ v, (k, v) ∈ h := by
  induction h with
  | nil => simp [hasKey]
  | cons p rest ih =>
    simp only [hasKey, List.any_cons, Bool.or_eq_true, decide_eq_true_eq] at ih ⊢
    constructor
    · rintro (hpk | hrest)
      · exact ⟨p.2, by rw [← hpk]; exact List.mem_cons_self _ _⟩
      · obtain ⟨v, hv⟩ := ih.mp hrest
        exact ⟨v, List.mem_cons_of_mem _ hv⟩
    · rintro ⟨v, hv⟩
      rcases List.mem_cons.mp hv with heq | hmem
      · left
        rw [← heq]
      · right
        exact ih.mpr ⟨v, hmem⟩

/-! ### Claim theorems -/

/-- C5: `resent` returns true if and only if a key named exactly
`Resent-Date` is present in the mapping. -/
theorem resent_claim (h : Headers) :
    resent h = true ↔ ∃ v, ("Resent-Date", v) ∈ h :=
  hasKey_iff_mem h "Resent-Date"

/-- C9: `date` and `message_id` treat every falsy argument — the empty
string as well as the absent `None` — as unspecified and fall back to the
freshly generated value, while a non-empty argument is yielded as given. -/
theorem date_message_id_falsy_claim (freshNow freshId : String) :
    date (some "") freshNow = ("Date", freshNow)
    ∧ message_id (some "") freshId = ("Message-ID", freshId)
    ∧ date none freshNow = ("Date", freshNow)
    ∧ message_id none freshId = ("Message-ID", freshId)
    ∧ (∀ s : String, s ≠ "" → date (some s) freshNow = ("Date", s))
    ∧ (∀ s : String, s ≠ "" → message_id (some s) freshId = ("Message-ID", s)) := by
  refine ⟨by simp [date, pyOrStr], by simp [message_id, pyOrStr], rfl, rfl, ?_, ?_⟩
  · intro s hs
    simp [date, pyOrStr, hs]
  · intro s hs
    simp [message_id, pyOrStr, hs]

/-- Witness for C9 at concrete inputs. -/
theorem date_message_id_falsy_claim_witness :
    date (some "t1") "now" = ("Date", "t1")
    ∧ date (some "") "now" = ("Date", "now") :=
  ⟨(date_message_id_falsy_claim "now" "mid").2.2.2.2.1 "t1" (by decide),
   (date_message_id_falsy_claim "now" "mid").1⟩

/-- Appending on the left distributes over the accumulator of
`String.intercalate.go`. -/
theorem intercalate_go_append (s : String) (as : List String) :
    ∀ x acc : String,
      String.intercalate.go (x ++ acc) s as = x ++ String.intercalate.go acc s as := by
  induction as with
  | nil =>
    intro x acc
    rfl
  | cons a as ih =>
    intro x acc
    have h1 : x ++ acc ++ s ++ a = x ++ (acc ++ s ++ a) := by
      simp [String.append_assoc]
    calc String.intercalate.go (x ++ acc) s (a :: as)
        = String.intercalate.go (x ++ acc ++ s ++ a) s as := rfl
      _ = String.intercalate.go (x ++ (acc ++ s ++ a)) s as := by rw [h1]
      _ = x ++ String.intercalate.go (acc ++ s ++ a) s as := ih x _
      _ = x ++ String.intercalate.go acc s (a :: as) := rfl

/-- A comma-space join peels off its first element when at least two remain. -/
theorem intercalate_cons₂ (s a b : String) (rest : List String) :
    String.intercalate s (a :: b :: rest) = a ++ s ++ String.intercalate s (b :: rest) := by
  show String.intercalate.go a s (b :: rest) = a ++ s ++ String.intercalate.go b s rest
  calc String.intercalate.go a s (b :: rest)
      = String.intercalate.go (a ++ s ++ b) s rest := rfl
    _ = a ++ s ++ String.intercalate.go b s rest := intercalate_go_append s rest (a ++ s) b

/-- C8: `to`, `cc` and `bcc` yield the fixed names `To`, `Cc` and `Bcc`
with the addresses joined by comma-space, characterised recursively; in
particular `to` at the pair of addresses `a@x.com` and `b@x.com` yields the name `To` with value `a@x.com, b@x.com`. -/
theorem to_cc_bcc_claim (addrs : List String) :
    (toHeader addrs).1 = "To"
    ∧ (ccHeader addrs).1 = "Cc"
    ∧ (bccHeader addrs).1 = "Bcc"
    ∧ (toHeader addrs).2 = (ccHeader addrs).2
    ∧ (ccHeader addrs).2 = (bccHeader addrs).2
    ∧ (toHeader ([] : List String)).2 = ""
    ∧ (∀ a : String, (toHeader [a]).2 = a)
    ∧ (∀ (a b : String) (rest : List String),
        (toHeader (a :: b :: rest)).2 = a ++ ", " ++ (toHeader (b :: rest)).2)
    ∧ toHeader ["a@x.com", "b@x.com"] = ("To", "a@x.com, b@x.com") := by
  refine ⟨rfl, rfl, rfl, rfl, rfl, rfl, fun a => rfl,
    fun a b rest => intercalate_cons₂ ", " a b rest, by decide⟩

/-- C7 as stated is false: the code quotes the filename with
`email.utils.quote`, which escapes backslashes and double quotes only, so
a space survives unencoded and no percent-style quoting happens at all. -/
theorem content_disposition_counterexample :
    content_disposition "attachment" "my file.txt"
      = ("Content-Disposition", "attachment; filename=\"my file.txt\"")
    ∧ content_disposition "attachment" "my file.txt"
      ≠ ("Content-Disposition", "attachment; filename=\"my%20file.txt\"")
    ∧ ¬ ('%' ∈ (content_disposition "attachment" "my file.txt").2.data) := by
  exact ⟨by decide, by decide, by decide⟩

/-- C7 amended: `content_disposition` yields the pair
whose name is `Content-Disposition` and whose value appends the disposition, a literal `; filename=` part, and the quoted filename `q` in double quotes, where
`q` is the filename transformed by `email.utils.quote`: backslashes are
doubled, double quotes are backslash-escaped, and every other character —
spaces included — is kept verbatim. -/
theorem content_disposition_amended (disposition filename : String) :
    (content_disposition disposition filename).1 = "Content-Disposition"
    ∧ (content_disposition disposition filename).2
        = disposition ++ "; filename=\"" ++ quote filename ++ "\""
    ∧ (∀ c : Char, c ≠ '\\' → c ≠ '"' → quote (String.mk [c]) = String.mk [c])
    ∧ quote "\\" = "\\\\"
    ∧ quote "\"" = "\\\""
    ∧ (∀ a b : String, quote (a ++ b) = quote a ++ quote b) := by
  refine ⟨rfl, rfl, ?_, by decide, by decide, ?_⟩
  · intro c h1 h2
    simp [quote, quoteChar, h1, h2]
  · intro a b
    have hdata : (a ++ b).data.map quoteChar = a.data.map quoteChar ++ b.data.map quoteChar := by
      rw [String.data_append, List.map_append]
    simp only [quote, hdata, List.flatten_append]
    rfl

/-- Witness for the amended C7 at concrete inputs. -/
theorem content_disposition_amended_witness :
    quote (String.mk ['a']) = String.mk ['a']
    ∧ (content_disposition "attachment" "my file.txt").1 = "Content-Disposition" :=
  ⟨(content_disposition_amended "attachment" "my file.txt").2.2.1 'a' (by decide) (by decide),
   (content_disposition_amended "attachment" "my file.txt").1⟩

/-- The two-candidate lookup loop is the `Option.or` of the two gets. -/
theorem firstPresent_pair (h : Headers) (k1 k2 : String) :
    firstPresent h [k1, k2] = (dictGet h k1).or (dictGet h k2) := by
  simp only [firstPresent, hasKey_eq_isSome]
  cases hd1 : dictGet h k1 <;> cases hd2 : dictGet h k2 <;> simp [Option.or]

/-- C2: `sender` returns the value of the first present key among
`Resent-Sender` then `Resent-From` when resent, else among `Sender` then
`From`, is absent when none of the chosen candidates is present, and with
`Resent-Date` set plus a `Resent-From` and a `From`, answers the
`Resent-From` value, ignoring the non-chosen list. -/
theorem sender_claim (h : Headers) :
    (resent h = true →
      sender h = (dictGet h "Resent-Sender").or (dictGet h "Resent-From"))
    ∧ (resent h = false →
      sender h = (dictGet h "Sender").or (dictGet h "From"))
    ∧ sender [("Resent-Date", "d"), ("Resent-From", "carol@x.com"), ("From", "alice@x.com")]
        = some "carol@x.com" := by
  refine ⟨?_, ?_, by decide⟩
  · intro hr
    simp only [sender, hr, if_true]
    exact firstPresent_pair h _ _
  · intro hr
    simp only [sender, hr, Bool.false_eq_true, if_false]
    exact firstPresent_pair h _ _

/-- Witness for C2: both branches applied at concrete header sets. -/
theorem sender_claim_witness :
    sender [("Resent-Date", "d"), ("From", "alice@x.com")]
      = (dictGet [("Resent-Date", "d"), ("From", "alice@x.com")] "Resent-Sender").or
        (dictGet [("Resent-Date", "d"), ("From", "alice@x.com")] "Resent-From")
    ∧ sender [("From", "alice@x.com")]
      = (dictGet [("From", "alice@x.com")] "Sender").or
        (dictGet [("From", "alice@x.com")] "From") :=
  ⟨(sender_claim [("Resent-Date", "d"), ("From", "alice@x.com")]).1 (by decide),
   (sender_claim [("From", "alice@x.com")]).2.1 (by decide)⟩

/-- The loop of `prepare`, run on the full state, never changes the header
half and acts on the message half exactly as `prepare` does. -/
theorem prepareS_foldl (l : Headers) :
    ∀ s : Headers × Mime,
      (l.foldl (fun s kv => prepareStep kv.1 kv.2 s) s).1 = s.1
      ∧ (l.foldl (fun s kv => prepareStep kv.1 kv.2 s) s).2
        = l.foldl (fun acc kv =>
            if kv.1 = "Bcc" ∨ kv.1 = "Resent-Bcc" then acc
            else mimeSet (mimeDel acc kv.1) kv.1 kv.2) s.2 := by
  induction l with
  | nil => exact fun s => ⟨rfl, rfl⟩
  | cons p rest ih =>
    intro s
    simp only [List.foldl_cons]
    have hstep : (prepareStep p.1 p.2 s).1 = s.1
        ∧ (prepareStep p.1 p.2 s).2
          = (if p.1 = "Bcc" ∨ p.1 = "Resent-Bcc" then s.2
             else mimeSet (mimeDel s.2 p.1) p.1 p.2) := by
      unfold prepareStep
      split <;> exact ⟨rfl, rfl⟩
    obtain ⟨h1, h2⟩ := ih (prepareStep p.1 p.2 s)
    refine ⟨h1.trans hstep.1, ?_⟩
    rw [h2, hstep.2]

/-- C10: running `prepare` on the joint state leaves the header mapping
itself completely unchanged; only the message half is rewritten, and it is
rewritten exactly as `prepare` describes.  The read-only operations
`resent`, `sender` and `receivers` are pure functions of the header set in
this embedding, mirroring that their Python bodies only read `self`. -/
theorem prepare_frame_claim (h : Headers) (m : Mime) :
    (prepareS h m).1 = h ∧ (prepareS h m).2 = prepare h m := by
  simpa only [prepareS, prepare] using prepareS_foldl h (h, m)

/-- Unfolding equation for `prepare` on a cons cell. -/
theorem prepare_cons (p : String × String) (rest : Headers) (m : Mime) :
    prepare (p :: rest) m
      = prepare rest
          (if p.1 = "Bcc" ∨ p.1 = "Resent-Bcc" then m
           else mimeSet (mimeDel m p.1) p.1 p.2) := rfl

/-- A `Bcc`-like entry of the prepared message was already on the message:
`prepare` never writes one. -/
theorem mem_prepare_skipped (k v : String) (hk : k = "Bcc" ∨ k = "Resent-Bcc") :
    ∀ (h : Headers) (m : Mime), (k, v) ∈ prepare h m → (k, v) ∈ m := by
  intro h
  induction h with
  | nil => exact fun m hm => hm
  | cons p rest ih =>
    intro m hm
    rw [prepare_cons] at hm
    by_cases hp : p.1 = "Bcc" ∨ p.1 = "Resent-Bcc"
    · rw [if_pos hp] at hm
      exact ih m hm
    · rw [if_neg hp] at hm
      have h2 := ih _ hm
      rcases List.mem_append.mp h2 with hin | hone
      · exact List.mem_of_mem_filter hin
      · exfalso
        simp only [List.mem_singleton, Prod.mk.injEq] at hone
        rw [hone.1] at hk
        exact hp hk

/-- An entry whose key `prepare` never touches survives onto the prepared
message. -/
theorem mem_prepare_of_not_key (k v : String) :
    ∀ (h : Headers) (m : Mime), (∀ p ∈ h, p.1 ≠ k) → (k, v) ∈ m → (k, v) ∈ prepare h m := by
  intro h
  induction h with
  | nil => exact fun m _ hm => hm
  | cons p rest ih =>
    intro m hna hm
    rw [prepare_cons]
    by_cases hp : p.1 = "Bcc" ∨ p.1 = "Resent-Bcc"
    · rw [if_pos hp]
      exact ih m (fun q hq => hna q (List.mem_cons_of_mem _ hq)) hm
    · rw [if_neg hp]
      apply ih _ (fun q hq => hna q (List.mem_cons_of_mem _ hq))
      apply List.mem_append_left
      apply List.mem_filter.mpr
      refine ⟨hm, ?_⟩
      simpa using Ne.symm (hna p (List.mem_cons_self _ _))

/-- Every stored non-`Bcc` entry of the header set lands on the prepared
message. -/
theorem mem_prepare_of_mem (k v : String) :
    ∀ (h : Headers) (m : Mime), NodupKeys h → (k, v) ∈ h →
      ¬(k = "Bcc" ∨ k = "Resent-Bcc") → (k, v) ∈ prepare h m := by
  intro h
  induction h with
  | nil =>
    intro m _ hm _
    exact absurd hm (List.not_mem_nil _)
  | cons p rest ih =>
    obtain ⟨pk, pv⟩ := p
    intro m hnd hm hk
    obtain ⟨hnotin, hnd2⟩ : pk ∉ keys rest ∧ (rest.map Prod.fst).Nodup := by
      simpa [NodupKeys, keys] using hnd
    rw [prepare_cons]
    rcases List.mem_cons.mp hm with heq | hmem
    · obtain ⟨hk1, hk2⟩ : k = pk ∧ v = pv := Prod.mk.injEq .. |>.mp heq
      subst hk1
      subst hk2
      rw [if_neg hk]
      apply mem_prepare_of_not_key k v rest _ ?_ ?_
      · intro q hq hqk
        exact hnotin (hqk ▸ List.mem_map_of_mem Prod.fst hq)
      · exact List.mem_append_right _ (List.mem_singleton_self _)
    · exact ih _ hnd2 hmem hk

/-- C1: `prepare` writes every stored entry onto the message except those
keyed exactly `Bcc` or `Resent-Bcc`, which are never written, even when
both are present. -/
theorem prepare_claim (h : Headers) (m : Mime) (hnd : NodupKeys h) :
    (∀ k v : String, (k, v) ∈ h → k ≠ "Bcc" → k ≠ "Resent-Bcc" → (k, v) ∈ prepare h m)
    ∧ (∀ v : String, ("Bcc", v) ∈ prepare h m → ("Bcc", v) ∈ m)
    ∧ (∀ v : String, ("Resent-Bcc", v) ∈ prepare h m → ("Resent-Bcc", v) ∈ m) := by
  refine ⟨?_, ?_, ?_⟩
  · intro k v hm hb hrb
    apply mem_prepare_of_mem k v h m hnd hm
    rintro (h1 | h2)
    · exact hb h1
    · exact hrb h2
  · intro v
    exact mem_prepare_skipped "Bcc" v (Or.inl rfl) h m
  · intro v
    exact mem_prepare_skipped "Resent-Bcc" v (Or.inr rfl) h m

/-- Witness for C1 at a header set holding both blind-copy keys. -/
theorem prepare_claim_witness :
    ("Subject", "hi") ∈ prepare
      [("Bcc", "b@x.com"), ("Resent-Bcc", "rb@x.com"), ("Subject", "hi")] [("X", "y")] :=
  (prepare_claim [("Bcc", "b@x.com"), ("Resent-Bcc", "rb@x.com"), ("Subject", "hi")]
      [("X", "y")] (by decide)).1 "Subject" "hi" (by decide) (by decide) (by decide)

/-- Filtering for one name after filtering a different name away is the
same as filtering for the name directly. -/
theorem filter_filter_ne (k k2 : String) (hne : k2 ≠ k) (m : Mime) :
    (m.filter (fun p => p.1 ≠ k2)).filter (fun p => p.1 = k)
      = m.filter (fun p => p.1 = k) := by
  rw [List.filter_filter]
  apply List.filter_congr
  intro a _
  by_cases hak : a.1 = k
  · have hak2 : ¬ a.1 = k2 := by
      rw [hak]
      exact Ne.symm hne
    simp [hak, hak2]
    exact Ne.symm hne
  · simp [hak]

/-- Deleting a different name from the message keeps the entries stored
under `k` intact. -/
theorem filter_mimeDel_ne (k k2 : String) (hne : k2 ≠ k) (m : Mime) :
    (mimeDel m k2).filter (fun p => p.1 = k) = m.filter (fun p => p.1 = k) := by
  simp only [mimeDel]
  exact filter_filter_ne k k2 hne m

/-- After deleting the name `k` from a message, no entry under `k` remains. -/
theorem filter_mimeDel_self (k : String) (m : Mime) :
    (mimeDel m k).filter (fun p => p.1 = k) = [] := by
  simp only [mimeDel, List.filter_filter]
  apply List.filter_eq_nil_iff.mpr
  intro a _
  simp

/-- `prepare` over keys other than `k` does not change the entries stored
under `k` on the message. -/
theorem filter_prepare_of_not_key (k : String) :
    ∀ (h : Headers) (m : Mime), (∀ p ∈ h, p.1 ≠ k) →
      (prepare h m).filter (fun p => p.1 = k) = m.filter (fun p => p.1 = k) := by
  intro h
  induction h with
  | nil => exact fun m _ => rfl
  | cons p rest ih =>
    intro m hna
    rw [prepare_cons]
    by_cases hp : p.1 = "Bcc" ∨ p.1 = "Resent-Bcc"
    · rw [if_pos hp]
      exact ih m (fun q hq => hna q (List.mem_cons_of_mem _ hq))
    · rw [if_neg hp]
      rw [ih _ (fun q hq => hna q (List.mem_cons_of_mem _ hq))]
      have hpk : p.1 ≠ k := hna p (List.mem_cons_self _ _)
      simp only [mimeSet, List.filter_append]
      rw [filter_mimeDel_ne k p.1 hpk m]
      simp [hpk]

/-- Preparing a header set that stores `(k, v)` (with unique keys, `k` not
blind-copy) leaves exactly the entry `(k, v)` under the name `k`. -/
theorem filter_prepare_eq (k v : String) :
    ∀ (h : Headers) (m : Mime), NodupKeys h → (k, v) ∈ h →
      ¬(k = "Bcc" ∨ k = "Resent-Bcc") →
      (prepare h m).filter (fun p => p.1 = k) = [(k, v)] := by
  intro h
  induction h with
  | nil =>
    intro m _ hm _
    exact absurd hm (List.not_mem_nil _)
  | cons p rest ih =>
    obtain ⟨pk, pv⟩ := p
    intro m hnd hm hk
    obtain ⟨hnotin, hnd2⟩ : pk ∉ keys rest ∧ (rest.map Prod.fst).Nodup := by
      simpa [NodupKeys, keys] using hnd
    rw [prepare_cons]
    rcases List.mem_cons.mp hm with heq | hmem
    · obtain ⟨hk1, hk2⟩ : k = pk ∧ v = pv := Prod.mk.injEq .. |>.mp heq
      subst hk1
      subst hk2
      have hrest : ∀ q ∈ rest, q.1 ≠ k := by
        intro q hq hqk
        exact hnotin (hqk ▸ List.mem_map_of_mem Prod.fst hq)
      rw [if_neg hk]
      rw [filter_prepare_of_not_key k rest _ hrest]
      simp only [mimeSet, List.filter_append]
      rw [filter_mimeDel_self k m]
      simp
    · exact ih _ hnd2 hmem hk

/-- C6: for every stored non-blind-copy key, `prepare` first removes any
existing entries of that name from the message and then stores its own
value, so the prepared message carries exactly one occurrence of each
applied header name, holding the header set value; the message state is
threaded through, standing for the in-place mutation. -/
theorem prepare_exactly_once_claim (h : Headers) (m : Mime) (k v : String)
    (hnd : NodupKeys h) (hmem : (k, v) ∈ h) (hb : k ≠ "Bcc") (hrb : k ≠ "Resent-Bcc") :
    (prepare h m).filter (fun p => p.1 = k) = [(k, v)]
    ∧ countKey (prepare h m) k = 1 := by
  have hor : ¬(k = "Bcc" ∨ k = "Resent-Bcc") := by
    rintro (h1 | h2)
    · exact hb h1
    · exact hrb h2
  have hf := filter_prepare_eq k v h m hnd hmem hor
  exact ⟨hf, by simp [countKey, hf]⟩

/-- Witness for C6: a message already carrying two stale `Subject` entries
ends up with exactly the one stored value. -/
theorem prepare_exactly_once_claim_witness :
    (prepare [("Subject", "hi")] [("Subject", "old"), ("Subject", "older")]).filter
      (fun p => p.1 = "Subject") = [("Subject", "hi")]
    ∧ countKey (prepare [("Subject", "hi")] [("Subject", "old"), ("Subject", "older")])
        "Subject" = 1 :=
  prepare_exactly_once_claim [("Subject", "hi")] [("Subject", "old"), ("Subject", "older")]
    "Subject" "hi" (by decide) (by decide) (by decide) (by decide)

/-- A key found among the keys after a dict write was already there or is
the written key. -/
theorem mem_keys_dictSet (k v a : String) :
    ∀ h : Headers, a ∈ keys (dictSet h k v) → a ∈ keys h ∨ a = k := by
  intro h
  induction h with
  | nil =>
    intro ha
    simp [dictSet, keys] at ha
    exact Or.inr ha
  | cons p rest ih =>
    intro ha
    by_cases hp : p.1 = k
    · simp only [dictSet, if_pos hp, keys, List.map_cons, List.mem_cons] at ha ⊢
      rcases ha with ha | ha
      · exact Or.inr ha
      · exact Or.inl (Or.inr ha)
    · simp only [dictSet, if_neg hp, keys, List.map_cons, List.mem_cons] at ha ⊢
      rcases ha with ha | ha
      · exact Or.inl (Or.inl ha)
      · rcases ih ha with h1 | h1
        · exact Or.inl (Or.inr h1)
        · exact Or.inr h1

/-- A dict write keeps all keys unique. -/
theorem nodupKeys_dictSet (k v : String) :
    ∀ h : Headers, NodupKeys h → NodupKeys (dictSet h k v) := by
  intro h
  induction h with
  | nil =>
    intro _
    simp [dictSet, NodupKeys, keys]
  | cons p rest ih =>
    intro hnd
    obtain ⟨hnotin, hnd2⟩ : p.1 ∉ keys rest ∧ (rest.map Prod.fst).Nodup := by
      simpa [NodupKeys, keys] using hnd
    by_cases hp : p.1 = k
    · simp only [dictSet, if_pos hp, NodupKeys, keys, List.map_cons, List.nodup_cons]
      refine ⟨?_, hnd2⟩
      rw [← hp]
      exact hnotin
    · simp only [dictSet, if_neg hp, NodupKeys, keys, List.map_cons, List.nodup_cons]
      refine ⟨?_, ih hnd2⟩
      intro hmem
      rcases mem_keys_dictSet k v p.1 rest hmem with h1 | h1
      · exact hnotin h1
      · exact hp h1

/-- A dict delete keeps all keys unique. -/
theorem nodupKeys_dictDel (k : String) (h : Headers) (hnd : NodupKeys h) :
    NodupKeys (dictDel h k) := by
  have hsub : List.Sublist (keys (dictDel h k)) (keys h) :=
    (List.filter_sublist h).map Prod.fst
  exact List.Nodup.sublist hsub hnd

/-- Every single caller operation preserves unique keys. -/
theorem nodupKeys_applyOp (h : Headers) (op : Op) (hnd : NodupKeys h) :
    NodupKeys (applyOp h op) := by
  cases op with
  | set k v => exact nodupKeys_dictSet k v h hnd
  | del k => exact nodupKeys_dictDel k h hnd

/-- Any sequence of caller operations preserves unique keys. -/
theorem nodupKeys_applyOps (ops : List Op) :
    ∀ h : Headers, NodupKeys h → NodupKeys (applyOps h ops) := by
  induction ops with
  | nil => exact fun h hnd => hnd
  | cons op rest ih => exact fun h hnd => ih _ (nodupKeys_applyOp h op hnd)

/-- On a dict with unique keys, writing `k := v` leaves exactly the entry
`(k, v)` under the name `k`. -/
theorem filter_dictSet_self (k v : String) :
    ∀ h : Headers, NodupKeys h →
      (dictSet h k v).filter (fun p => p.1 = k) = [(k, v)] := by
  intro h
  induction h with
  | nil =>
    intro _
    simp [dictSet]
  | cons p rest ih =>
    intro hnd
    obtain ⟨hnotin, hnd2⟩ : p.1 ∉ keys rest ∧ (rest.map Prod.fst).Nodup := by
      simpa [NodupKeys, keys] using hnd
    by_cases hp : p.1 = k
    · simp only [dictSet, if_pos hp, List.filter_cons]
      have hrest : rest.filter (fun p => p.1 = k) = [] := by
        apply List.filter_eq_nil_iff.mpr
        intro q hq
        simp only [decide_eq_true_eq]
        intro hqk
        apply hnotin
        rw [hp, ← hqk]
        exact List.mem_map_of_mem Prod.fst hq
      simp [hrest]
    · simp only [dictSet, if_neg hp, List.filter_cons]
      simp [hp, ih hnd2]

/-- Writing a different key does not change the entries under `k`. -/
theorem filter_dictSet_other (k k2 v : String) (hne : k2 ≠ k) :
    ∀ h : Headers,
      (dictSet h k2 v).filter (fun p => p.1 = k) = h.filter (fun p => p.1 = k) := by
  intro h
  induction h with
  | nil => simp [dictSet, hne]
  | cons p rest ih =>
    by_cases hp : p.1 = k2
    · have hpk : ¬ p.1 = k := by
        rw [hp]
        exact hne
      simp only [dictSet, if_pos hp, List.filter_cons]
      simp [hne, hpk]
    · simp only [dictSet, if_neg hp, List.filter_cons]
      by_cases hpk : p.1 = k
      · simp [hpk, ih]
      · simp [hpk, ih]

/-- Deleting a different key does not change the entries under `k`. -/
theorem filter_dictDel_other (k k2 : String) (hne : k2 ≠ k) (h : Headers) :
    (dictDel h k2).filter (fun p => p.1 = k) = h.filter (fun p => p.1 = k) := by
  simp only [dictDel]
  exact filter_filter_ne k k2 hne h

/-- Caller operations on other keys do not change the entries under `k`. -/
theorem filter_applyOps_other (k : String) :
    ∀ (ops : List Op) (h : Headers), (∀ op ∈ ops, Op.key op ≠ k) →
      (applyOps h ops).filter (fun p => p.1 = k) = h.filter (fun p => p.1 = k) := by
  intro ops
  induction ops with
  | nil => exact fun h _ => rfl
  | cons op rest ih =>
    intro h hops
    have hstep : (applyOp h op).filter (fun p => p.1 = k) = h.filter (fun p => p.1 = k) := by
      cases op with
      | set k2 v => exact filter_dictSet_other k k2 v (hops _ (List.mem_cons_self _ _)) h
      | del k2 => exact filter_dictDel_other k k2 (hops _ (List.mem_cons_self _ _)) h
    calc (applyOps h (op :: rest)).filter (fun p => p.1 = k)
        = (applyOps (applyOp h op) rest).filter (fun p => p.1 = k) := rfl
      _ = (applyOp h op).filter (fun p => p.1 = k) :=
          ih (applyOp h op) (fun o ho => hops o (List.mem_cons_of_mem _ ho))
      _ = h.filter (fun p => p.1 = k) := hstep

/-- C4: setting a name twice, with any intervening caller operations on
other keys, leaves exactly one entry for that name holding the latest
value; the first write also survives the intervening operations untouched,
and every operation preserves the at-most-one-value-per-name invariant. -/
theorem last_write_wins_claim (h : Headers) (k v1 v2 : String) (ops : List Op)
    (hnd : NodupKeys h) (hops : ∀ op ∈ ops, Op.key op ≠ k) :
    (dictSet (applyOps (dictSet h k v1) ops) k v2).filter (fun p => p.1 = k) = [(k, v2)]
    ∧ countKey (dictSet (applyOps (dictSet h k v1) ops) k v2) k = 1
    ∧ (applyOps (dictSet h k v1) ops).filter (fun p => p.1 = k) = [(k, v1)]
    ∧ (∀ (g : Headers) (op : Op), NodupKeys g → NodupKeys (applyOp g op)) := by
  have hnd1 : NodupKeys (dictSet h k v1) := nodupKeys_dictSet k v1 h hnd
  have hnd2 : NodupKeys (applyOps (dictSet h k v1) ops) := nodupKeys_applyOps ops _ hnd1
  have hf := filter_dictSet_self k v2 _ hnd2
  refine ⟨hf, by simp [countKey, hf], ?_, fun g op hg => nodupKeys_applyOp g op hg⟩
  rw [filter_applyOps_other k ops _ hops]
  exact filter_dictSet_self k v1 h hnd

/-- Witness for C4 at a concrete dict and operation sequence. -/
theorem last_write_wins_claim_witness :
    (dictSet
      (applyOps (dictSet [("From", "f@x.com")] "To" "a@x.com")
        [Op.set "Cc" "c@x.com", Op.del "From"])
      "To" "b@x.com").filter (fun p => p.1 = "To") = [("To", "b@x.com")] :=
  (last_write_wins_claim [("From", "f@x.com")] "To" "a@x.com" "b@x.com"
    [Op.set "Cc" "c@x.com", Op.del "From"] (by decide) (by decide)).1

/-- `getaddresses` on a cons: the first field contributes its parsed
chunks, then the remaining fields follow. -/
theorem getaddresses_cons (f : String) (fs : List String) :
    getaddresses (f :: fs)
      = (splitChar ',' f.data).map parseAddress ++ getaddresses fs := by
  simp [getaddresses]

/-- The address parts `receivers` extracts are the per-field parses of the
present, non-empty candidate values, concatenated in candidate order. -/
theorem getaddresses_fields_eq (h : Headers) :
    ∀ items : List String,
      (getaddresses (((items.map (fun item => dictGet h item)).filterMap id).filter
          (fun f => f ≠ ""))).map Prod.snd
        = (items.map (fun item =>
            match dictGet h item with
            | none => []
            | some f => if f = "" then [] else parseField f)).flatten := by
  intro items
  induction items with
  | nil => rfl
  | cons i rest ih =>
    simp only [List.map_cons, List.filterMap_cons, List.flatten_cons]
    cases hd : dictGet h i with
    | none =>
      simp only [id]
      exact ih
    | some f =>
      by_cases hf : f = ""
      · subst hf
        simpa using ih
      · simp only [id, List.filter_cons, decide_eq_true_eq]
        rw [if_pos hf, if_neg hf, getaddresses_cons, List.map_append]
        rw [ih]
        rfl

/-- C3: `receivers` walks `Resent-To`, `Resent-Cc`, `Resent-Bcc` when
resent and `To`, `Cc`, `Bcc` otherwise, parses each present non-empty
value as a comma-separated address list (both the named and the bare
form), and concatenates the extracted address parts in that order, keeping
duplicates; a missing or empty header contributes nothing, and with no
candidate key present the result is empty. -/
theorem receivers_claim (h : Headers) :
    (receivers h
      = ((if resent h then ["Resent-To", "Resent-Cc", "Resent-Bcc"]
          else ["To", "Cc", "Bcc"]).map
          (fun item =>
            match dictGet h item with
            | none => []
            | some f => if f = "" then [] else parseField f)).flatten)
    ∧ parseField "Alice <alice@x.com>, bob@x.com" = ["alice@x.com", "bob@x.com"]
    ∧ (resent h = false → hasKey h "To" = false → hasKey h "Cc" = false →
        hasKey h "Bcc" = false → receivers h = []) := by
  have hmain : receivers h
      = ((if resent h then ["Resent-To", "Resent-Cc", "Resent-Bcc"]
          else ["To", "Cc", "Bcc"]).map
          (fun item =>
            match dictGet h item with
            | none => []
            | some f => if f = "" then [] else parseField f)).flatten := by
    unfold receivers
    cases hres : resent h
    · simp only [Bool.false_eq_true, if_false]
      exact getaddresses_fields_eq h ["To", "Cc", "Bcc"]
    · simp only [if_true]
      exact getaddresses_fields_eq h ["Resent-To", "Resent-Cc", "Resent-Bcc"]
  refine ⟨hmain, by decide, ?_⟩
  intro hres hto hcc hbcc
  rw [hasKey_eq_isSome h "To"] at hto
  rw [hasKey_eq_isSome h "Cc"] at hcc
  rw [hasKey_eq_isSome h "Bcc"] at hbcc
  have hto2 : dictGet h "To" = none := by
    cases hx : dictGet h "To"
    · rfl
    · rw [hx] at hto
      simp at hto
  have hcc2 : dictGet h "Cc" = none := by
    cases hx : dictGet h "Cc"
    · rfl
    · rw [hx] at hcc
      simp at hcc
  have hbcc2 : dictGet h "Bcc" = none := by
    cases hx : dictGet h "Bcc"
    · rfl
    · rw [hx] at hbcc
      simp at hbcc
  rw [hmain, hres]
  simp [hto2, hcc2, hbcc2]

/-- Witness for C3: a header set with none of the candidate keys yields no
receivers. -/
theorem receivers_claim_witness :
    receivers [("From", "f@x.com")] = [] :=
  (receivers_claim [("From", "f@x.com")]).2.2 (by decide) (by decide) (by decide) (by decide)

end Mailthon
